import Mathlib

/-!
# CacheFlow: shallow embedding and verification

A shallow embedding of the CacheFlow caching library (Go): a size-bounded
LRU cache (`lru/lru.go`) and a lazily-expiring TTL cache
(`ttlcache/ttlcache.go`), with proofs of the specified properties.

Modelling conventions:
* Go `int64` is modelled as `Int` (no operation here comes near overflow,
  and the spec reasons at the mathematical level).
* A `cache.Value` is a record carrying an opaque payload and the result of
  its `Size()` method.
* The Go `map[string]*list.Element` plus `container/list` pointer structure
  is modelled as an association list `table` plus a recency list `ls`
  (front = oldest, back = newest); a mutation through the shared pointer is
  modelled by updating the item in both structures.
* `time.Now().UnixNano()` becomes an explicit `now : Int` argument.
-/

/-- A stored value: opaque payload plus its self-reported `Size()` (int64). -/
structure Val where
  data : Int
  size : Int
deriving DecidableEq, Repr

/-- The `item` struct of `lru/lru.go`: key, value, and recorded size. -/
structure Item where
  key : String
  value : Val
  size : Int
deriving DecidableEq, Repr

/-- First-match association-list lookup, modelling Go map indexing. -/
def lookupA {β : Type} : List (String × β) → String → Option β
  | [], _ => none
  | p :: t, k => if p.1 = k then some p.2 else lookupA t k

/-- Removal of a key, modelling Go `delete(m, k)`. -/
def deleteA {β : Type} (k : String) : List (String × β) → List (String × β)
  | [] => []
  | p :: t => if p.1 = k then deleteA k t else p :: deleteA k t

/-- Map assignment `m[k] = b` in canonical form (overwrite semantics). -/
def insertA {β : Type} (k : String) (b : β) (t : List (String × β)) :
    List (String × β) :=
  (k, b) :: deleteA k t

/-- Pointer-write through the table: replace the item stored under key `k`. -/
def replaceA (k : String) (it1 : Item) :
    List (String × Item) → List (String × Item)
  | [] => []
  | p :: t => if p.1 = k then (p.1, it1) :: replaceA k it1 t
              else p :: replaceA k it1 t

/-- The `LRUCache` struct of `lru/lru.go`. `ls` is the recency list, front =
oldest (`ls.Front()`), back = newest (`PushBack`). -/
structure LRUCache where
  capacity : Int
  size : Int
  ls : List Item
  table : List (String × Item)
deriving DecidableEq, Repr

/-- `lru.New`: empty cache with the given capacity. -/
def lruNew (capacity : Int) : LRUCache :=
  { capacity := capacity, size := 0, ls := [], table := [] }

/-- Find the list element holding key `k` (dereference of the table's
element pointer into the recency list). -/
def findLs : List Item → String → Option Item
  | [], _ => none
  | it :: ls, k => if it.key = k then some it else findLs ls k

/-- Remove the (first) list element holding key `k`, modelling
`list.Remove(e)` on the element found under `k`. -/
def eraseLs (k : String) : List Item → List Item
  | [] => []
  | it :: ls => if it.key = k then ls else it :: eraseLs k ls

/-- `MoveToBack` of the element holding key `k` (no-op if the element is not
in the list, as Go's `MoveToBack` is for a detached element). -/
def moveToBack (ls : List Item) (k : String) : List Item :=
  match findLs ls k with
  | none => ls
  | some it => eraseLs k ls ++ [it]

/-- `MoveToBack` after the element's item was mutated in place to `it1`. -/
def moveToBackAs (ls : List Item) (k : String) (it1 : Item) : List Item :=
  match findLs ls k with
  | none => ls
  | some _ => eraseLs k ls ++ [it1]

/-- The eviction loop of `evictLRU`: while `size > capacity`, pop the front
(oldest) element, delete its key from the table, subtract its size.
Returns the final `(size, ls, table)`. -/
def evictGo (cap : Int) : List Item → Int → List (String × Item) →
    Int × List Item × List (String × Item)
  | [], size, t => (size, [], t)
  | it :: ls, size, t =>
    if cap < size then evictGo cap ls (size - it.size) (deleteA it.key t)
    else (size, it :: ls, t)

/-- `evictLRU` on the whole cache state. -/
def lruEvict (c : LRUCache) : LRUCache :=
  let r := evictGo c.capacity c.ls c.size c.table
  { c with size := r.1, ls := r.2.1, table := r.2.2 }

/-- The body of `Put` before the final `evictLRU` call: update in place if
the key is present (size delta, value and size overwritten through the
shared pointer, `MoveToBack`), else `PushBack` a fresh item and index it. -/
def lruPutStep (c : LRUCache) (k : String) (v : Val) : LRUCache :=
  match lookupA c.table k with
  | some it0 =>
    { c with
      size := c.size + (v.size - it0.size),
      table := replaceA k { it0 with value := v, size := v.size } c.table,
      ls := moveToBackAs c.ls k { it0 with value := v, size := v.size } }
  | none =>
    { c with
      size := c.size + v.size,
      table := (k, ⟨k, v, v.size⟩) :: c.table,
      ls := c.ls ++ [⟨k, v, v.size⟩] }

/-- `LRUCache.Put`: the update/insert step followed by the eviction pass. -/
def lruPut (c : LRUCache) (k : String) (v : Val) : LRUCache :=
  lruEvict (lruPutStep c k v)

/-- `LRUCache.Get`: not-found leaves the state untouched; a hit moves the
entry to the back (newest) and returns its value. -/
def lruGet (c : LRUCache) (k : String) : Option Val × LRUCache :=
  match lookupA c.table k with
  | none => (none, c)
  | some it0 => (some it0.value, { c with ls := moveToBack c.ls k })

/-- `LRUCache.List`: snapshot of the key-value pairs in the table. -/
def lruList (c : LRUCache) : List (String × Val) :=
  c.table.map (fun p => (p.1, p.2.value))

/-- An operation applied to an LRU cache. -/
inductive Op where
  | put (k : String) (v : Val)
  | get (k : String)
deriving DecidableEq, Repr

/-- Apply one operation (the state left behind by `Get` is its second
component). -/
def applyOp (c : LRUCache) : Op → LRUCache
  | .put k v => lruPut c k v
  | .get k => (lruGet c k).2

/-- Run a sequence of operations on a freshly constructed cache. -/
def runOps (cap : Int) (ops : List Op) : LRUCache :=
  ops.foldl applyOp (lruNew cap)

/-- Sum of the recorded sizes of a list of items. -/
def sumSizes (ls : List Item) : Int :=
  (ls.map Item.size).sum

/-- The keys of the recency list, in order. -/
def keysOf (ls : List Item) : List String :=
  ls.map Item.key

/-- Internal consistency of a running size, recency list and table: no
duplicate keys in the recency list or the table, the table and the list hold
exactly the same items (each table entry is a list node registered under its
own key, and every list node is indexed), and the running size equals the
sum of recorded item sizes. -/
def InvParts (size : Int) (ls : List Item) (t : List (String × Item)) :
    Prop :=
  (keysOf ls).Nodup ∧
  (t.map Prod.fst).Nodup ∧
  (∀ p ∈ t, p.2 ∈ ls ∧ p.1 = p.2.key) ∧
  (∀ it ∈ ls, (it.key, it) ∈ t) ∧
  size = sumSizes ls

/-- Internal consistency of an `LRUCache` (see `InvParts`). -/
def InvLRU (c : LRUCache) : Prop :=
  InvParts c.size c.ls c.table

instance decInvParts (size : Int) (ls : List Item)
    (t : List (String × Item)) : Decidable (InvParts size ls t) := by
  unfold InvParts
  infer_instance

instance decInvLRU (c : LRUCache) : Decidable (InvLRU c) := by
  unfold InvLRU
  infer_instance

/-- Non-negativity requirement on the value of a `put`. -/
def opNonneg : Op → Prop
  | .put _ v => 0 ≤ v.size
  | .get _ => True

instance decOpNonneg : DecidablePred opNonneg := by
  intro op
  cases op with
  | put k v => exact decidable_of_iff (0 ≤ v.size) (by simp [opNonneg])
  | get k => exact decidable_of_iff True (by simp [opNonneg])

/-- The inductive invariant used to run operation sequences: fixed capacity,
internal consistency, entry sizes non-negative, and the running size within
capacity. -/
def GoodState (cap : Int) (c : LRUCache) : Prop :=
  c.capacity = cap ∧ InvLRU c ∧ (∀ it ∈ c.ls, 0 ≤ it.size) ∧ c.size ≤ cap

/-- The `item` struct of `ttlcache/ttlcache.go`: value and absolute expiry
instant in nanoseconds (`0` = never expires). -/
structure TTLItem where
  value : Val
  expiry : Int
deriving DecidableEq, Repr

/-- The `TTLCache` struct: just the key-indexed table. -/
structure TTLCache where
  table : List (String × TTLItem)
deriving DecidableEq, Repr

/-- `ttlcache.New`: empty table. -/
def ttlNew : TTLCache := ⟨[]⟩

/-- The expiry stored by `Put`: `now + ttl` when `ttl > 0`, else the
never-expires sentinel `0`. -/
def ttlExpiryOf (ttl now : Int) : Int :=
  if 0 < ttl then now + ttl else 0

/-- `TTLCache.Put` at instant `now`. -/
def ttlPut (c : TTLCache) (k : String) (v : Val) (ttl now : Int) : TTLCache :=
  ⟨insertA k ⟨v, ttlExpiryOf ttl now⟩ c.table⟩

/-- The expiry test of `Get`/`List`: `it.expiry > 0 && now > it.expiry`. -/
def ttlExpired (now : Int) (it : TTLItem) : Bool :=
  decide (0 < it.expiry) && decide (it.expiry < now)

/-- `TTLCache.Get` at instant `now`: a hit on an expired entry deletes it and
reports not-found; otherwise the value is returned and nothing changes. -/
def ttlGet (c : TTLCache) (k : String) (now : Int) : Option Val × TTLCache :=
  match lookupA c.table k with
  | none => (none, c)
  | some it =>
    if ttlExpired now it then (none, ⟨deleteA k c.table⟩)
    else (some it.value, c)

/-- `TTLCache.List` at instant `now`: expired entries met during the scan are
dropped from the table; the snapshot holds the unexpired key-value pairs. -/
def ttlList (c : TTLCache) (now : Int) : List (String × Val) × TTLCache :=
  ((c.table.filter (fun p => ! ttlExpired now p.2)).map
      (fun p => (p.1, p.2.value)),
   ⟨c.table.filter (fun p => ! ttlExpired now p.2)⟩)

/-! ## Association-list lemmas -/

theorem lookupA_mem {β : Type} {t : List (String × β)} {k : String} {b : β}
    (h : lookupA t k = some b) : (k, b) ∈ t := by
  induction t with
  | nil => simp [lookupA] at h
  | cons p t ih =>
    by_cases hk : p.1 = k
    · simp only [lookupA, if_pos hk] at h
      cases h
      have hpk : p = (k, p.2) := by
        obtain ⟨p1, p2⟩ := p
        simp_all
      rw [← hpk]
      exact List.mem_cons_self _ _
    · simp only [lookupA, if_neg hk] at h
      exact List.mem_cons_of_mem _ (ih h)

theorem lookupA_eq_none {β : Type} {t : List (String × β)} {k : String} :
    lookupA t k = none ↔ ∀ p ∈ t, p.1 ≠ k := by
  induction t with
  | nil => simp [lookupA]
  | cons p t ih =>
    by_cases hk : p.1 = k
    · simp [lookupA, if_pos hk, hk]
    · simp [lookupA, if_neg hk, ih, hk]

theorem mem_deleteA {β : Type} {t : List (String × β)} {k : String}
    {p : String × β} : p ∈ deleteA k t ↔ p ∈ t ∧ p.1 ≠ k := by
  induction t with
  | nil => simp [deleteA]
  | cons q t ih =>
    by_cases hq : q.1 = k
    · simp only [deleteA, if_pos hq, ih]
      constructor
      · rintro ⟨hp, hne⟩
        exact ⟨List.mem_cons_of_mem _ hp, hne⟩
      · rintro ⟨hp, hne⟩
        rcases List.mem_cons.mp hp with h | h
        · exact absurd (h ▸ hq) hne
        · exact ⟨h, hne⟩
    · simp only [deleteA, if_neg hq, List.mem_cons, ih]
      constructor
      · rintro (h | ⟨hp, hne⟩)
        · exact ⟨Or.inl h, h ▸ hq⟩
        · exact ⟨Or.inr hp, hne⟩
      · rintro ⟨h | h, hne⟩
        · exact Or.inl h
        · exact Or.inr ⟨h, hne⟩

theorem deleteA_sublist {β : Type} (k : String) (t : List (String × β)) :
    List.Sublist (deleteA k t) t := by
  induction t with
  | nil => simp [deleteA]
  | cons q t ih =>
    by_cases hq : q.1 = k
    · simpa [deleteA, if_pos hq] using List.Sublist.cons q ih
    · simpa [deleteA, if_neg hq] using List.Sublist.cons₂ q ih

theorem lookupA_deleteA_self {β : Type} (k : String) (t : List (String × β)) :
    lookupA (deleteA k t) k = none :=
  lookupA_eq_none.mpr (fun p hp => (mem_deleteA.mp hp).2)

theorem deleteA_deleteA {β : Type} (k : String) (t : List (String × β)) :
    deleteA k (deleteA k t) = deleteA k t := by
  induction t with
  | nil => simp [deleteA]
  | cons q t ih =>
    by_cases hq : q.1 = k
    · simp [deleteA, if_pos hq, ih]
    · simp [deleteA, if_neg hq, ih]

theorem replaceA_map_fst (k : String) (it1 : Item)
    (t : List (String × Item)) :
    (replaceA k it1 t).map Prod.fst = t.map Prod.fst := by
  induction t with
  | nil => simp [replaceA]
  | cons q t ih =>
    by_cases hq : q.1 = k
    · simp [replaceA, if_pos hq, ih]
    · simp [replaceA, if_neg hq, ih]

theorem mem_replaceA_iff {k : String} {it1 : Item} {t : List (String × Item)}
    {p : String × Item} :
    p ∈ replaceA k it1 t ↔
      (p ∈ t ∧ p.1 ≠ k) ∨ (p.1 = k ∧ p.2 = it1 ∧ ∃ q ∈ t, q.1 = k) := by
  induction t with
  | nil => simp [replaceA]
  | cons q t ih =>
    by_cases hq : q.1 = k
    · simp only [replaceA, if_pos hq, List.mem_cons, ih]
      constructor
      · rintro (rfl | ⟨hp, hne⟩ | ⟨h1, h2, r, hr, hrk⟩)
        · exact Or.inr ⟨hq, rfl, q, Or.inl rfl, hq⟩
        · exact Or.inl ⟨Or.inr hp, hne⟩
        · exact Or.inr ⟨h1, h2, r, Or.inr hr, hrk⟩
      · rintro (⟨rfl | hp, hne⟩ | ⟨h1, h2, r, hr, hrk⟩)
        · exact absurd hq hne
        · exact Or.inr (Or.inl ⟨hp, hne⟩)
        · left
          obtain ⟨p1, p2⟩ := p
          simp_all
    · simp only [replaceA, if_neg hq, List.mem_cons, ih]
      constructor
      · rintro (rfl | ⟨hp, hne⟩ | ⟨h1, h2, r, hr, hrk⟩)
        · exact Or.inl ⟨Or.inl rfl, hq⟩
        · exact Or.inl ⟨Or.inr hp, hne⟩
        · exact Or.inr ⟨h1, h2, r, Or.inr hr, hrk⟩
      · rintro (⟨rfl | hp, hne⟩ | ⟨h1, h2, r, rfl | hr, hrk⟩)
        · exact Or.inl rfl
        · exact Or.inr (Or.inl ⟨hp, hne⟩)
        · exact absurd hrk hq
        · exact Or.inr (Or.inr ⟨h1, h2, r, hr, hrk⟩)

theorem lookupA_replaceA (k : String) (it1 : Item) (t : List (String × Item)) :
    lookupA (replaceA k it1 t) k = (lookupA t k).map (fun _ => it1) := by
  induction t with
  | nil => simp [replaceA, lookupA]
  | cons q t ih =>
    by_cases hq : q.1 = k
    · simp [replaceA, if_pos hq, lookupA, ih]
    · simp [replaceA, if_neg hq, lookupA, ih]

theorem lookupA_of_mem_nodup {t : List (String × Item)} {k : String} {b : Item}
    (hnd : (t.map Prod.fst).Nodup) (hmem : (k, b) ∈ t) :
    lookupA t k = some b := by
  induction t with
  | nil => simp at hmem
  | cons q t ih =>
    simp only [List.map_cons, List.nodup_cons] at hnd
    rcases List.mem_cons.mp hmem with h | h
    · simp [lookupA, ← h]
    · have hne : q.1 ≠ k := by
        intro hq
        exact hnd.1 (hq ▸ (List.mem_map.mpr ⟨(k, b), h, rfl⟩))
      simp [lookupA, if_neg hne, ih hnd.2 h]

/-! ## Recency-list lemmas -/

theorem findLs_decomp {ls : List Item} {k : String} {it0 : Item}
    (h : findLs ls k = some it0) :
    ∃ l1 l2, ls = l1 ++ it0 :: l2 ∧ it0.key = k ∧
      eraseLs k ls = l1 ++ l2 ∧ ∀ it ∈ l1, it.key ≠ k := by
  induction ls with
  | nil => simp [findLs] at h
  | cons it ls ih =>
    by_cases hk : it.key = k
    · simp only [findLs, if_pos hk] at h
      cases h
      exact ⟨[], ls, rfl, hk, by simp [eraseLs, if_pos hk], by simp⟩
    · simp only [findLs, if_neg hk] at h
      obtain ⟨l1, l2, hls, hkey, herase, hl1⟩ := ih h
      refine ⟨it :: l1, l2, by simp [hls], hkey, ?_, ?_⟩
      · simp [eraseLs, if_neg hk, herase]
      · intro j hj
        rcases List.mem_cons.mp hj with rfl | hj
        · exact hk
        · exact hl1 j hj

theorem findLs_eq_none {ls : List Item} {k : String} :
    findLs ls k = none ↔ ∀ it ∈ ls, it.key ≠ k := by
  induction ls with
  | nil => simp [findLs]
  | cons it ls ih =>
    by_cases hk : it.key = k
    · simp [findLs, if_pos hk, hk]
    · simp [findLs, if_neg hk, ih, hk]

theorem findLs_mem {ls : List Item} {k : String} {it0 : Item}
    (h : findLs ls k = some it0) : it0 ∈ ls := by
  obtain ⟨l1, l2, hls, -, -, -⟩ := findLs_decomp h
  rw [hls]
  exact List.mem_append.mpr (Or.inr (List.mem_cons_self _ _))

theorem findLs_of_mem_nodup {ls : List Item} {k : String} {it0 : Item}
    (hnd : (keysOf ls).Nodup) (hmem : it0 ∈ ls) (hkey : it0.key = k) :
    findLs ls k = some it0 := by
  induction ls with
  | nil => simp at hmem
  | cons it ls ih =>
    simp only [keysOf, List.map_cons, List.nodup_cons] at hnd
    rcases List.mem_cons.mp hmem with rfl | h
    · simp [findLs, if_pos hkey]
    · have hne : it.key ≠ k := by
        intro hk
        exact hnd.1 (hk ▸ hkey ▸ (List.mem_map.mpr ⟨it0, h, rfl⟩))
      simp only [findLs, if_neg hne]
      exact ih hnd.2 h

theorem mem_eraseLs_sub {ls : List Item} {k : String} {it : Item}
    (h : it ∈ eraseLs k ls) : it ∈ ls := by
  induction ls with
  | nil => simpa [eraseLs] using h
  | cons j ls ih =>
    by_cases hk : j.key = k
    · simp only [eraseLs, if_pos hk] at h
      exact List.mem_cons_of_mem _ h
    · simp only [eraseLs, if_neg hk, List.mem_cons] at h
      rcases h with rfl | h
      · exact List.mem_cons_self _ _
      · exact List.mem_cons_of_mem _ (ih h)

/-! ## Size-sum and key lemmas -/

theorem sumSizes_nil : sumSizes [] = 0 := rfl

theorem sumSizes_cons (it : Item) (ls : List Item) :
    sumSizes (it :: ls) = it.size + sumSizes ls := by
  simp [sumSizes]

theorem sumSizes_append (l1 l2 : List Item) :
    sumSizes (l1 ++ l2) = sumSizes l1 + sumSizes l2 := by
  simp [sumSizes]

theorem sumSizes_nonneg {ls : List Item} (h : ∀ it ∈ ls, 0 ≤ it.size) :
    0 ≤ sumSizes ls := by
  induction ls with
  | nil => simp [sumSizes]
  | cons it ls ih =>
    rw [sumSizes_cons]
    have h1 := h it (List.mem_cons_self _ _)
    have h2 := ih (fun j hj => h j (List.mem_cons_of_mem _ hj))
    omega

theorem sumSizes_perm {l1 l2 : List Item} (h : List.Perm l1 l2) :
    sumSizes l1 = sumSizes l2 :=
  List.Perm.sum_eq (List.Perm.map Item.size h)

theorem keysOf_perm {l1 l2 : List Item} (h : List.Perm l1 l2) :
    List.Perm (keysOf l1) (keysOf l2) :=
  List.Perm.map Item.key h

theorem moveToBack_perm {ls : List Item} {k : String} {it0 : Item}
    (h : findLs ls k = some it0) :
    List.Perm ls (eraseLs k ls ++ [it0]) := by
  obtain ⟨l1, l2, hls, -, herase, -⟩ := findLs_decomp h
  rw [herase, hls]
  have h2 : List.Perm (l1 ++ it0 :: l2) (l1 ++ (l2 ++ [it0])) :=
    List.Perm.append_left l1 (@List.perm_append_comm _ [it0] l2)
  simpa [List.append_assoc] using h2

theorem middle_perm {α : Type} (l1 l2 : List α) (a : α) :
    List.Perm (l1 ++ a :: l2) ((l1 ++ l2) ++ [a]) := by
  have h2 : List.Perm (l1 ++ a :: l2) (l1 ++ (l2 ++ [a])) :=
    List.Perm.append_left l1 (@List.perm_append_comm _ [a] l2)
  simpa [List.append_assoc] using h2

theorem mem_moveToBack_sub {ls : List Item} {k : String} {it : Item}
    (h : it ∈ moveToBack ls k) : it ∈ ls := by
  unfold moveToBack at h
  cases hf : findLs ls k with
  | none => rw [hf] at h; exact h
  | some j =>
    rw [hf] at h
    rcases List.mem_append.mp h with h | h
    · exact mem_eraseLs_sub h
    · rw [List.mem_singleton.mp h]
      exact findLs_mem hf

/-! ## Invariant lemmas -/

theorem inv_lookup_some {c : LRUCache} {k : String} {it0 : Item}
    (hinv : InvLRU c) (h : lookupA c.table k = some it0) :
    it0 ∈ c.ls ∧ it0.key = k ∧ findLs c.ls k = some it0 := by
  obtain ⟨hnd, -, h3, -, -⟩ := hinv
  have hm := lookupA_mem h
  have h30 := h3 _ hm
  exact ⟨h30.1, h30.2.symm, findLs_of_mem_nodup hnd h30.1 h30.2.symm⟩

theorem inv_lookup_none {c : LRUCache} {k : String}
    (hinv : InvLRU c) (h : lookupA c.table k = none) :
    ∀ it ∈ c.ls, it.key ≠ k := by
  intro it hit
  exact lookupA_eq_none.mp h _ (hinv.2.2.2.1 it hit)

theorem invLRU_ls_perm {c : LRUCache} {ls' : List Item}
    (hinv : InvLRU c) (hp : List.Perm c.ls ls') :
    InvLRU { c with ls := ls' } := by
  obtain ⟨hnd, hndt, h3, h4, hsz⟩ := hinv
  refine ⟨(List.Perm.nodup_iff (keysOf_perm hp)).mp hnd, hndt, ?_, ?_, ?_⟩
  · intro p hpmem
    obtain ⟨h1, h2⟩ := h3 p hpmem
    exact ⟨(List.Perm.mem_iff hp).mp h1, h2⟩
  · intro it hit
    exact h4 it ((List.Perm.mem_iff hp).mpr hit)
  · rw [hsz]
    exact sumSizes_perm hp

theorem lruGet_inv {c : LRUCache} {k : String} (hinv : InvLRU c) :
    InvLRU (lruGet c k).2 := by
  cases hl : lookupA c.table k with
  | none => simpa [lruGet, hl] using hinv
  | some it0 =>
    obtain ⟨-, -, hfind⟩ := inv_lookup_some hinv hl
    have hmtb : moveToBack c.ls k = eraseLs k c.ls ++ [it0] := by
      simp [moveToBack, hfind]
    simp only [lruGet, hl]
    rw [hmtb]
    exact invLRU_ls_perm hinv (moveToBack_perm hfind)

theorem lruGet_frame (c : LRUCache) (k : String) :
    (lruGet c k).2.capacity = c.capacity ∧ (lruGet c k).2.size = c.size ∧
      (lruGet c k).2.table = c.table := by
  cases hl : lookupA c.table k <;> simp [lruGet, hl]

theorem lruPutStep_inv {c : LRUCache} {k : String} {v : Val}
    (hinv : InvLRU c) : InvLRU (lruPutStep c k v) := by
  obtain ⟨hnd, hndt, h3, h4, hsz⟩ := hinv
  cases hl : lookupA c.table k with
  | none =>
    have hfresh : ∀ p ∈ c.table, p.1 ≠ k := lookupA_eq_none.mp hl
    have hknotls : ∀ it ∈ c.ls, it.key ≠ k := fun it hit =>
      hfresh _ (h4 it hit)
    simp only [lruPutStep, hl]
    refine ⟨?_, ?_, ?_, ?_, ?_⟩
    · simp only [keysOf, List.map_append, List.map_cons, List.map_nil]
      rw [List.nodup_append]
      refine ⟨hnd, List.nodup_singleton _, ?_⟩
      intro a ha hak
      rw [List.mem_singleton.mp hak] at ha
      obtain ⟨it, hit, hkey⟩ := List.mem_map.mp ha
      exact hknotls it hit hkey
    · simp only [List.map_cons, List.nodup_cons]
      refine ⟨?_, hndt⟩
      intro hk
      obtain ⟨p, hp, hpk⟩ := List.mem_map.mp hk
      exact hfresh p hp hpk
    · intro p hp
      rcases List.mem_cons.mp hp with rfl | hp
      · exact ⟨List.mem_append.mpr (Or.inr (List.mem_singleton.mpr rfl)), rfl⟩
      · obtain ⟨h1, h2⟩ := h3 p hp
        exact ⟨List.mem_append.mpr (Or.inl h1), h2⟩
    · intro it hit
      rcases List.mem_append.mp hit with hit | hit
      · exact List.mem_cons_of_mem _ (h4 it hit)
      · rw [List.mem_singleton.mp hit]
        exact List.mem_cons_self _ _
    · simp only [sumSizes_append, sumSizes_cons, sumSizes_nil]
      omega
  | some it0 =>
    have hm := lookupA_mem hl
    have h30 := h3 _ hm
    have hit0ls : it0 ∈ c.ls := h30.1
    have hit0k : it0.key = k := h30.2.symm
    have hfind : findLs c.ls k = some it0 := findLs_of_mem_nodup hnd hit0ls hit0k
    obtain ⟨l1, l2, hls, -, herase, hl1⟩ := findLs_decomp hfind
    have hknotl1 : ∀ it ∈ l1, it.key ≠ k := hl1
    have hkeysplit : keysOf c.ls = keysOf l1 ++ it0.key :: keysOf l2 := by
      rw [hls]; simp [keysOf]
    have hknotl2 : ∀ it ∈ l2, it.key ≠ k := by
      intro it hit hk
      rw [hkeysplit] at hnd
      obtain ⟨-, hnd2, -⟩ := List.nodup_append.mp hnd
      exact (List.nodup_cons.mp hnd2).1
        (hit0k ▸ hk ▸ List.mem_map.mpr ⟨it, hit, rfl⟩)
    set it1 : Item := { it0 with value := v, size := v.size } with hit1
    have hit1k : it1.key = k := hit0k
    have hmtb : moveToBackAs c.ls k it1 = (l1 ++ l2) ++ [it1] := by
      simp [moveToBackAs, hfind, herase]
    simp only [lruPutStep, hl]
    rw [hmtb]
    refine ⟨?_, ?_, ?_, ?_, ?_⟩
    · have hpk : List.Perm (keysOf c.ls) (keysOf ((l1 ++ l2) ++ [it1])) := by
        rw [hkeysplit]
        have : keysOf ((l1 ++ l2) ++ [it1]) =
            (keysOf l1 ++ keysOf l2) ++ [it0.key] := by
          simp [keysOf, hit1]
        rw [this]
        exact middle_perm _ _ _
      exact (List.Perm.nodup_iff hpk).mp hnd
    · rw [replaceA_map_fst]
      exact hndt
    · intro p hp
      rcases mem_replaceA_iff.mp hp with ⟨hpt, hpne⟩ | ⟨hpk, hpv, -⟩
      · obtain ⟨h1, h2⟩ := h3 p hpt
        have hne0 : p.2 ≠ it0 := by
          intro he
          exact hpne (h2.trans (he ▸ hit0k))
        have : p.2 ∈ l1 ++ l2 := by
          rw [hls] at h1
          rcases List.mem_append.mp h1 with h | h
          · exact List.mem_append.mpr (Or.inl h)
          · rcases List.mem_cons.mp h with h | h
            · exact absurd h hne0
            · exact List.mem_append.mpr (Or.inr h)
        exact ⟨List.mem_append.mpr (Or.inl this), h2⟩
      · refine ⟨List.mem_append.mpr (Or.inr (List.mem_singleton.mpr hpv)), ?_⟩
        rw [hpv, hit1k, hpk]
    · intro it hit
      rcases List.mem_append.mp hit with hit | hit
      · have hinls : it ∈ c.ls := by
          rw [hls]
          rcases List.mem_append.mp hit with h | h
          · exact List.mem_append.mpr (Or.inl h)
          · exact List.mem_append.mpr (Or.inr (List.mem_cons_of_mem _ h))
        have hne : it.key ≠ k := by
          rcases List.mem_append.mp hit with h | h
          · exact hknotl1 it h
          · exact hknotl2 it h
        exact mem_replaceA_iff.mpr (Or.inl ⟨h4 it hinls, hne⟩)
      · rw [List.mem_singleton.mp hit]
        exact mem_replaceA_iff.mpr
          (Or.inr ⟨hit1k, rfl, (k, it0), hm, rfl⟩)
    · have hsums : sumSizes c.ls = sumSizes l1 + it0.size + sumSizes l2 := by
        rw [hls]
        simp only [sumSizes_append, sumSizes_cons]
        omega
      simp only [sumSizes_append, sumSizes_cons, sumSizes_nil]
      have : it1.size = v.size := rfl
      omega

theorem lruPutStep_nonneg {c : LRUCache} {k : String} {v : Val}
    (hls : ∀ it ∈ c.ls, 0 ≤ it.size) (hv : 0 ≤ v.size) :
    ∀ it ∈ (lruPutStep c k v).ls, 0 ≤ it.size := by
  cases hl : lookupA c.table k with
  | none =>
    simp only [lruPutStep, hl]
    intro it hit
    rcases List.mem_append.mp hit with h | h
    · exact hls it h
    · rw [List.mem_singleton.mp h]
      exact hv
  | some it0 =>
    simp only [lruPutStep, hl]
    intro it hit
    unfold moveToBackAs at hit
    cases hf : findLs c.ls k with
    | none => rw [hf] at hit; exact hls it hit
    | some j =>
      rw [hf] at hit
      rcases List.mem_append.mp hit with h | h
      · exact hls it (mem_eraseLs_sub h)
      · rw [List.mem_singleton.mp h]
        exact hv

theorem lruPutStep_capacity (c : LRUCache) (k : String) (v : Val) :
    (lruPutStep c k v).capacity = c.capacity := by
  cases hl : lookupA c.table k <;> simp [lruPutStep, hl]

/-! ## Eviction-loop lemmas -/

theorem evictGo_invParts (cap : Int) : ∀ (ls : List Item) (size : Int)
    (t : List (String × Item)), InvParts size ls t →
    InvParts (evictGo cap ls size t).1 (evictGo cap ls size t).2.1
      (evictGo cap ls size t).2.2 := by
  intro ls
  induction ls with
  | nil =>
    intro size t h
    simpa [evictGo] using h
  | cons it ls ih =>
    intro size t h
    obtain ⟨hnd, hndt, h3, h4, hsz⟩ := h
    simp only [keysOf, List.map_cons, List.nodup_cons] at hnd
    by_cases hc : cap < size
    · simp only [evictGo, if_pos hc]
      apply ih
      refine ⟨hnd.2, ?_, ?_, ?_, ?_⟩
      · exact List.Nodup.sublist
          (List.Sublist.map Prod.fst (deleteA_sublist it.key t)) hndt
      · intro p hp
        obtain ⟨hpt, hpne⟩ := mem_deleteA.mp hp
        obtain ⟨h1, h2⟩ := h3 p hpt
        rcases List.mem_cons.mp h1 with rfl | h1
        · exact absurd (h2 ▸ rfl) hpne
        · exact ⟨h1, h2⟩
      · intro j hj
        have hjk : j.key ≠ it.key := by
          intro he
          exact hnd.1 (he ▸ List.mem_map.mpr ⟨j, hj, rfl⟩)
        exact mem_deleteA.mpr ⟨h4 j (List.mem_cons_of_mem _ hj), hjk⟩
      · rw [sumSizes_cons] at hsz
        omega
    · simp only [evictGo, if_neg hc]
      exact ⟨List.nodup_cons.mpr ⟨hnd.1, hnd.2⟩, hndt, h3, h4, hsz⟩

theorem evictGo_le (cap : Int) : ∀ (ls : List Item) (size : Int)
    (t : List (String × Item)), size = sumSizes ls →
    (∀ it ∈ ls, 0 ≤ it.size) → 0 ≤ cap →
    (evictGo cap ls size t).1 ≤ cap := by
  intro ls
  induction ls with
  | nil =>
    intro size t hsz _ hcap
    rw [sumSizes_nil] at hsz
    simpa [evictGo, hsz] using hcap
  | cons it ls ih =>
    intro size t hsz hnn hcap
    by_cases hc : cap < size
    · simp only [evictGo, if_pos hc]
      refine ih _ _ ?_ (fun j hj => hnn j (List.mem_cons_of_mem _ hj)) hcap
      rw [sumSizes_cons] at hsz
      omega
    · simp only [evictGo, if_neg hc]
      omega

theorem evictGo_ls_sub (cap : Int) : ∀ (ls : List Item) (size : Int)
    (t : List (String × Item)) (it : Item),
    it ∈ (evictGo cap ls size t).2.1 → it ∈ ls := by
  intro ls
  induction ls with
  | nil =>
    intro size t it h
    simpa [evictGo] using h
  | cons j ls ih =>
    intro size t it h
    by_cases hc : cap < size
    · simp only [evictGo, if_pos hc] at h
      exact List.mem_cons_of_mem _ (ih _ _ _ h)
    · simpa only [evictGo, if_neg hc] using h

theorem evictGo_empty (cap : Int) : ∀ (l1 : List Item) (j : Item)
    (size : Int) (t : List (String × Item)),
    (∀ i ∈ l1, 0 ≤ i.size) → cap < j.size → size = sumSizes (l1 ++ [j]) →
    (evictGo cap (l1 ++ [j]) size t).2.1 = [] := by
  intro l1
  induction l1 with
  | nil =>
    intro j size t _ hj hsz
    simp only [sumSizes_append, sumSizes_cons, sumSizes_nil, List.nil_append]
      at hsz
    have hc : cap < size := by omega
    simp [evictGo, if_pos hc]
  | cons i l1 ih =>
    intro j size t hnn hj hsz
    have hrest : sumSizes (l1 ++ [j]) = sumSizes l1 + j.size := by
      simp [sumSizes_append, sumSizes_cons, sumSizes_nil]
    have hl1nn : 0 ≤ sumSizes l1 :=
      sumSizes_nonneg (fun a ha => hnn a (List.mem_cons_of_mem _ ha))
    have hi : 0 ≤ i.size := hnn i (List.mem_cons_self _ _)
    have hsz' : size = i.size + sumSizes (l1 ++ [j]) := by
      rw [List.cons_append, sumSizes_cons] at hsz
      omega
    have hc : cap < size := by omega
    rw [List.cons_append]
    simp only [evictGo, if_pos hc]
    refine ih j _ _ (fun a ha => hnn a (List.mem_cons_of_mem _ ha)) hj ?_
    omega

theorem lruEvict_inv {c : LRUCache} (hinv : InvLRU c) :
    InvLRU (lruEvict c) := by
  have h := evictGo_invParts c.capacity c.ls c.size c.table hinv
  exact h

theorem lruEvict_capacity (c : LRUCache) :
    (lruEvict c).capacity = c.capacity := rfl

theorem lruEvict_le {c : LRUCache} (hsz : c.size = sumSizes c.ls)
    (hnn : ∀ it ∈ c.ls, 0 ≤ it.size) (hcap : 0 ≤ c.capacity) :
    (lruEvict c).size ≤ c.capacity :=
  evictGo_le c.capacity c.ls c.size c.table hsz hnn hcap

theorem lruEvict_nonneg {c : LRUCache} (hnn : ∀ it ∈ c.ls, 0 ≤ it.size) :
    ∀ it ∈ (lruEvict c).ls, 0 ≤ it.size := by
  intro it hit
  exact hnn it (evictGo_ls_sub c.capacity c.ls c.size c.table it hit)

/-! ## Running operation sequences -/

theorem lruGet_ls_sub {c : LRUCache} {k : String} {it : Item}
    (h : it ∈ (lruGet c k).2.ls) : it ∈ c.ls := by
  cases hl : lookupA c.table k with
  | none =>
    simp only [lruGet, hl] at h
    exact h
  | some j =>
    simp only [lruGet, hl] at h
    exact mem_moveToBack_sub h

theorem goodState_new {cap : Int} (hcap : 0 ≤ cap) :
    GoodState cap (lruNew cap) := by
  refine ⟨rfl, ?_, ?_, ?_⟩
  · exact ⟨List.nodup_nil, List.nodup_nil, by simp [lruNew], by simp [lruNew],
      rfl⟩
  · intro it hit
    simp [lruNew] at hit
  · exact hcap

theorem goodState_applyOp {cap : Int} {c : LRUCache} {op : Op}
    (hg : GoodState cap c) (hop : opNonneg op) :
    GoodState cap (applyOp c op) := by
  obtain ⟨hcap, hinv, hnn, hle⟩ := hg
  cases op with
  | get k =>
    obtain ⟨hc, hs, -⟩ := lruGet_frame c k
    exact ⟨hc.trans hcap, lruGet_inv hinv,
      fun it hit => hnn it (lruGet_ls_sub hit), hs ▸ hle⟩
  | put k v =>
    have hsz : c.size = sumSizes c.ls := hinv.2.2.2.2
    have h0 : (0 : Int) ≤ cap := le_trans (hsz ▸ sumSizes_nonneg hnn) hle
    have hinv1 := lruPutStep_inv (k := k) (v := v) hinv
    have hnn1 := lruPutStep_nonneg (c := c) (k := k) (v := v) hnn hop
    refine ⟨?_, lruEvict_inv hinv1, lruEvict_nonneg hnn1, ?_⟩
    · show (lruEvict (lruPutStep c k v)).capacity = cap
      rw [lruEvict_capacity, lruPutStep_capacity]
      exact hcap
    · show (lruEvict (lruPutStep c k v)).size ≤ cap
      have := lruEvict_le hinv1.2.2.2.2 hnn1
        (by rw [lruPutStep_capacity]; omega)
      rwa [lruPutStep_capacity, hcap] at this

theorem foldl_goodState {cap : Int} : ∀ (l : List Op) (c : LRUCache),
    GoodState cap c → (∀ op ∈ l, opNonneg op) →
    GoodState cap (l.foldl applyOp c) := by
  intro l
  induction l with
  | nil => intro c h _; exact h
  | cons op l ih =>
    intro c h hl
    exact ih _ (goodState_applyOp h (hl op (List.mem_cons_self _ _)))
      (fun o ho => hl o (List.mem_cons_of_mem _ ho))

theorem runOps_good {cap : Int} (hcap : 0 ≤ cap) (ops : List Op)
    (hops : ∀ op ∈ ops, opNonneg op) : GoodState cap (runOps cap ops) :=
  foldl_goodState ops _ (goodState_new hcap) hops

/-! ## Claim theorems: LRU cache -/

/-- C1: for every LRU cache constructed with a positive capacity and every
sequence of `Put` and `Get` operations whose values report non-negative
sizes, after each operation completes (in particular after each `Put`,
including its eviction pass — the statement quantifies over all sequences,
hence over every prefix ending in a `Put`), the sum of the sizes of all
entries present in the cache is at most the configured capacity. -/
theorem c1_capacity_invariant (cap : Int) (ops : List Op) (hcap : 0 < cap)
    (hops : ∀ op ∈ ops, opNonneg op) :
    sumSizes (runOps cap ops).ls ≤ cap := by
  obtain ⟨-, hinv, -, hle⟩ := runOps_good (le_of_lt hcap) ops hops
  rw [← hinv.2.2.2.2]
  exact hle

theorem c1_witness :
    sumSizes (runOps 16 [Op.put "a" ⟨1, 8⟩, Op.put "b" ⟨2, 12⟩]).ls ≤ 16 :=
  c1_capacity_invariant 16 _ (by decide) (by decide)

/-- C2: LRU eviction is in least-recently-touched order with `Get` counting
as a touch: with capacity 16 and 8-byte values, after `Put a`, `Put b`,
`Get a`, the `Put c` evicts exactly `b` (leaving a and c present, a oldest),
and a further `Put d` evicts exactly `a` (leaving c and d present). -/
theorem c2_true_lru_order :
    keysOf (runOps 16 [Op.put "a" ⟨10, 8⟩, Op.put "b" ⟨20, 8⟩, Op.get "a",
        Op.put "c" ⟨30, 8⟩]).ls = ["a", "c"] ∧
    lookupA (runOps 16 [Op.put "a" ⟨10, 8⟩, Op.put "b" ⟨20, 8⟩, Op.get "a",
        Op.put "c" ⟨30, 8⟩]).table "b" = none ∧
    lookupA (runOps 16 [Op.put "a" ⟨10, 8⟩, Op.put "b" ⟨20, 8⟩, Op.get "a",
        Op.put "c" ⟨30, 8⟩]).table "a" = some ⟨"a", ⟨10, 8⟩, 8⟩ ∧
    keysOf (runOps 16 [Op.put "a" ⟨10, 8⟩, Op.put "b" ⟨20, 8⟩, Op.get "a",
        Op.put "c" ⟨30, 8⟩, Op.put "d" ⟨40, 8⟩]).ls = ["c", "d"] ∧
    lookupA (runOps 16 [Op.put "a" ⟨10, 8⟩, Op.put "b" ⟨20, 8⟩, Op.get "a",
        Op.put "c" ⟨30, 8⟩, Op.put "d" ⟨40, 8⟩]).table "a" = none := by
  decide

/-- C4: a `Put` of a value whose own size strictly exceeds the configured
capacity, on any internally consistent cache whose entries have
non-negative sizes, completes (the model is total) and leaves the cache
empty: the just-inserted key is evicted together with every previously
present entry, and the running size is zero. -/
theorem c4_oversized_empties (c : LRUCache) (k : String) (v : Val)
    (hinv : InvLRU c) (hnn : ∀ it ∈ c.ls, 0 ≤ it.size)
    (hover : c.capacity < v.size) :
    lruPut c k v =
      { capacity := c.capacity, size := 0, ls := [], table := [] } := by
  have hshape : ∃ l1 it1, (lruPutStep c k v).ls = l1 ++ [it1] ∧
      it1.size = v.size ∧ (∀ i ∈ l1, 0 ≤ i.size) := by
    cases hl : lookupA c.table k with
    | none =>
      refine ⟨c.ls, ⟨k, v, v.size⟩, ?_, rfl, hnn⟩
      simp [lruPutStep, hl]
    | some it0 =>
      obtain ⟨-, -, hfind⟩ := inv_lookup_some hinv hl
      refine ⟨eraseLs k c.ls, { it0 with value := v, size := v.size }, ?_,
        rfl, ?_⟩
      · simp [lruPutStep, hl, moveToBackAs, hfind]
      · intro i hi
        exact hnn i (mem_eraseLs_sub hi)
  obtain ⟨l1, it1, hls, hsz1, hnn1⟩ := hshape
  have hinv1 : InvLRU (lruPutStep c k v) := lruPutStep_inv hinv
  have hcap1 : (lruPutStep c k v).capacity = c.capacity :=
    lruPutStep_capacity c k v
  have hE : lruPut c k v =
      ⟨(lruPutStep c k v).capacity,
       (evictGo (lruPutStep c k v).capacity (lruPutStep c k v).ls
         (lruPutStep c k v).size (lruPutStep c k v).table).1,
       (evictGo (lruPutStep c k v).capacity (lruPutStep c k v).ls
         (lruPutStep c k v).size (lruPutStep c k v).table).2.1,
       (evictGo (lruPutStep c k v).capacity (lruPutStep c k v).ls
         (lruPutStep c k v).size (lruPutStep c k v).table).2.2⟩ := rfl
  have hparts : InvParts (lruPutStep c k v).size (lruPutStep c k v).ls
      (lruPutStep c k v).table := hinv1
  rw [hls] at hE hparts
  have hover1 : (lruPutStep c k v).capacity < it1.size := by
    rw [hcap1, hsz1]
    exact hover
  have hlsE := evictGo_empty (lruPutStep c k v).capacity l1 it1
    (lruPutStep c k v).size (lruPutStep c k v).table hnn1 hover1
    hparts.2.2.2.2
  have hinvE := evictGo_invParts (lruPutStep c k v).capacity (l1 ++ [it1])
    (lruPutStep c k v).size (lruPutStep c k v).table hparts
  have hszE : (evictGo (lruPutStep c k v).capacity (l1 ++ [it1])
      (lruPutStep c k v).size (lruPutStep c k v).table).1 = 0 := by
    have h := hinvE.2.2.2.2
    rw [hlsE] at h
    simpa [sumSizes_nil] using h
  have htabE : (evictGo (lruPutStep c k v).capacity (l1 ++ [it1])
      (lruPutStep c k v).size (lruPutStep c k v).table).2.2 = [] := by
    refine List.eq_nil_iff_forall_not_mem.mpr (fun p hp => ?_)
    have h := (hinvE.2.2.1 p hp).1
    rw [hlsE] at h
    simp at h
  rw [hE, hszE, hlsE, htabE, hcap1]

theorem c4_witness :
    lruPut (runOps 16 [Op.put "a" ⟨1, 8⟩, Op.put "b" ⟨2, 8⟩]) "z" ⟨9, 99⟩ =
      { capacity := 16, size := 0, ls := [], table := [] } :=
  c4_oversized_empties _ _ _ (by decide) (by decide) (by decide)

theorem getLast?_append_one (l : List Item) (a : Item) :
    (l ++ [a]).getLast? = some a := by
  simp

/-- C5, counterexample: on a cache with capacity 16 holding `a` and `b` of
size 8 each (total 16), a `Put` of `b` with a value of size 16 does not
change the running total by `s_new - s_old = 8`: the eviction pass that
`Put` triggers also removes `a`, so the total goes from 16 to 16, not
to 24. -/
theorem c5_counterexample :
    lookupA (runOps 16 [Op.put "a" ⟨1, 8⟩, Op.put "b" ⟨2, 8⟩]).table "b"
      = some ⟨"b", ⟨2, 8⟩, 8⟩ ∧
    (runOps 16 [Op.put "a" ⟨1, 8⟩, Op.put "b" ⟨2, 8⟩]).size = 16 ∧
    (lruPut (runOps 16 [Op.put "a" ⟨1, 8⟩, Op.put "b" ⟨2, 8⟩]) "b"
      ⟨3, 16⟩).size = 16 ∧
    ¬ ((lruPut (runOps 16 [Op.put "a" ⟨1, 8⟩, Op.put "b" ⟨2, 8⟩]) "b"
        ⟨3, 16⟩).size
      = (runOps 16 [Op.put "a" ⟨1, 8⟩, Op.put "b" ⟨2, 8⟩]).size
        + ((16 : Int) - 8)) := by
  decide

/-- C5 (amended): the in-place update step of `Put` on a present key — the
part of `Put` before the eviction pass — changes the running total by
exactly `s_new - s_old` (old contribution subtracted, new added, no double
counting, as witnessed by the sum of entry sizes changing by the same
delta), replaces the stored value and size under the key, and moves the
entry to the newest recency position; the subsequent eviction pass may then
remove entries when the adjusted total exceeds the capacity. -/
theorem c5_update_accounting (c : LRUCache) (k : String) (v : Val)
    (it0 : Item) (hinv : InvLRU c) (hl : lookupA c.table k = some it0) :
    (lruPutStep c k v).size = c.size + (v.size - it0.size) ∧
    lookupA (lruPutStep c k v).table k
      = some { it0 with value := v, size := v.size } ∧
    (lruPutStep c k v).ls.getLast?
      = some { it0 with value := v, size := v.size } ∧
    sumSizes (lruPutStep c k v).ls = sumSizes c.ls + (v.size - it0.size) := by
  obtain ⟨-, -, hfind⟩ := inv_lookup_some hinv hl
  have h1 : (lruPutStep c k v).size = c.size + (v.size - it0.size) := by
    simp [lruPutStep, hl]
  refine ⟨h1, ?_, ?_, ?_⟩
  · simp only [lruPutStep, hl]
    rw [lookupA_replaceA, hl]
    rfl
  · simp only [lruPutStep, hl]
    have hmtb : moveToBackAs c.ls k { it0 with value := v, size := v.size }
        = eraseLs k c.ls ++ [{ it0 with value := v, size := v.size }] := by
      simp [moveToBackAs, hfind]
    rw [hmtb]
    exact getLast?_append_one _ _
  · have h2 := (lruPutStep_inv (k := k) (v := v) hinv).2.2.2.2
    have h3 : c.size = sumSizes c.ls := hinv.2.2.2.2
    omega

theorem c5_witness :
    (lruPutStep (runOps 16 [Op.put "a" ⟨1, 8⟩]) "a" ⟨2, 4⟩).size
      = (runOps 16 [Op.put "a" ⟨1, 8⟩]).size + ((4 : Int) - 8) ∧
    lookupA (lruPutStep (runOps 16 [Op.put "a" ⟨1, 8⟩]) "a" ⟨2, 4⟩).table "a"
      = some ⟨"a", ⟨2, 4⟩, 4⟩ ∧
    (lruPutStep (runOps 16 [Op.put "a" ⟨1, 8⟩]) "a" ⟨2, 4⟩).ls.getLast?
      = some ⟨"a", ⟨2, 4⟩, 4⟩ ∧
    sumSizes (lruPutStep (runOps 16 [Op.put "a" ⟨1, 8⟩]) "a" ⟨2, 4⟩).ls
      = sumSizes (runOps 16 [Op.put "a" ⟨1, 8⟩]).ls + ((4 : Int) - 8) :=
  c5_update_accounting _ "a" ⟨2, 4⟩ ⟨"a", ⟨1, 8⟩, 8⟩ (by decide) (by decide)

/-- C9: `Put` and `Get` preserve the internal consistency invariant: the
key-indexed table and the recency list contain exactly the same entries
(each table entry is a list node registered under its own key, every list
node is indexed, no duplicate keys) and the running size equals the sum of
the recorded entry sizes. `List` reads the table without mutating anything
(it is a pure function of the state in this model, as in the source), so it
preserves the invariant trivially. -/
theorem c9_ops_preserve_inv (c : LRUCache) (k j : String) (v : Val)
    (hinv : InvLRU c) :
    InvLRU (lruPut c k v) ∧ InvLRU (lruGet c j).2 :=
  ⟨lruEvict_inv (lruPutStep_inv hinv), lruGet_inv hinv⟩

theorem c9_witness :
    InvLRU (lruPut (runOps 16 [Op.put "a" ⟨1, 8⟩, Op.put "b" ⟨2, 8⟩])
        "c" ⟨3, 8⟩) ∧
    InvLRU (lruGet (runOps 16 [Op.put "a" ⟨1, 8⟩, Op.put "b" ⟨2, 8⟩])
        "a").2 :=
  c9_ops_preserve_inv _ _ _ _ (by decide)

/-- C10: a `Get` for an absent key reports not-found and returns the cache
state completely unchanged — same capacity, running size, recency list and
table. -/
theorem c10_get_miss_frame (c : LRUCache) (k : String)
    (h : lookupA c.table k = none) : lruGet c k = (none, c) := by
  simp [lruGet, h]

theorem c10_witness :
    lruGet (runOps 16 [Op.put "a" ⟨1, 8⟩, Op.put "b" ⟨2, 8⟩]) "z"
      = (none, runOps 16 [Op.put "a" ⟨1, 8⟩, Op.put "b" ⟨2, 8⟩]) :=
  c10_get_miss_frame _ _ (by decide)

/-! ## Claim theorems: TTL cache -/

/-- C3, counterexample: an entry stored at instant 0 with ttl 5 has expiry
instant 5; a `Get` performed exactly at instant 5 — a time equal to the
stored expiry — still returns the value as present, not absent: the code
only treats the entry as expired when `now > expiry` holds strictly. -/
theorem c3_counterexample :
    (ttlPut ttlNew "k" ⟨1, 8⟩ 5 0).table = [("k", ⟨⟨1, 8⟩, 5⟩)] ∧
    (ttlGet (ttlPut ttlNew "k" ⟨1, 8⟩ 5 0) "k" 5).1 = some ⟨1, 8⟩ ∧
    ¬ ((ttlGet (ttlPut ttlNew "k" ⟨1, 8⟩ 5 0) "k" 5).1 = none) := by
  decide

/-- C3 (amended): an entry whose expiry is set (`expiry > 0`) is logically
present iff the current time is at or before the stored expiry: a `Get`
performed strictly after the expiry treats it as absent (and removes it),
a `Get` at or before the expiry returns it unchanged; likewise `List`
drops the entry from the table exactly when the time is strictly after the
expiry, and includes its key-value pair when the time is at or before it. -/
theorem c3_expiry_boundary (c : TTLCache) (k : String) (it : TTLItem)
    (now : Int) (hl : lookupA c.table k = some it) (he : 0 < it.expiry) :
    (it.expiry < now → ttlGet c k now = (none, ⟨deleteA k c.table⟩) ∧
      lookupA (ttlGet c k now).2.table k = none) ∧
    (now ≤ it.expiry → ttlGet c k now = (some it.value, c)) ∧
    (it.expiry < now → (k, it) ∉ (ttlList c now).2.table) ∧
    (now ≤ it.expiry → (k, it.value) ∈ (ttlList c now).1) := by
  refine ⟨?_, ?_, ?_, ?_⟩
  · intro hlt
    have hexp : ttlExpired now it = true := by
      simp only [ttlExpired, Bool.and_eq_true, decide_eq_true_eq]
      exact ⟨he, hlt⟩
    have hget : ttlGet c k now = (none, ⟨deleteA k c.table⟩) := by
      simp [ttlGet, hl, hexp]
    refine ⟨hget, ?_⟩
    rw [hget]
    exact lookupA_deleteA_self k c.table
  · intro hle
    have hexp : ttlExpired now it = false := by
      simp only [ttlExpired, Bool.and_eq_false_iff, decide_eq_false_iff_not,
        not_lt]
      right
      exact hle
    simp [ttlGet, hl, hexp]
  · intro hlt hmem
    have hexp : ttlExpired now it = true := by
      simp only [ttlExpired, Bool.and_eq_true, decide_eq_true_eq]
      exact ⟨he, hlt⟩
    have h2 := (List.mem_filter.mp hmem).2
    rw [hexp] at h2
    simp at h2
  · intro hle
    have hexp : ttlExpired now it = false := by
      simp only [ttlExpired, Bool.and_eq_false_iff, decide_eq_false_iff_not,
        not_lt]
      right
      exact hle
    have hmem : (k, it) ∈ c.table.filter (fun p => ! ttlExpired now p.2) :=
      List.mem_filter.mpr ⟨lookupA_mem hl, by simp [hexp]⟩
    exact List.mem_map.mpr ⟨(k, it), hmem, rfl⟩

theorem c3_witness :
    ((5 : Int) < 7 →
      ttlGet (ttlPut ttlNew "k" ⟨1, 8⟩ 5 0) "k" 7
        = (none, ⟨deleteA "k" (ttlPut ttlNew "k" ⟨1, 8⟩ 5 0).table⟩) ∧
      lookupA (ttlGet (ttlPut ttlNew "k" ⟨1, 8⟩ 5 0) "k" 7).2.table "k"
        = none) ∧
    ((7 : Int) ≤ 5 →
      ttlGet (ttlPut ttlNew "k" ⟨1, 8⟩ 5 0) "k" 7
        = (some ⟨1, 8⟩, ttlPut ttlNew "k" ⟨1, 8⟩ 5 0)) ∧
    ((5 : Int) < 7 →
      ("k", (⟨⟨1, 8⟩, 5⟩ : TTLItem))
        ∉ (ttlList (ttlPut ttlNew "k" ⟨1, 8⟩ 5 0) 7).2.table) ∧
    ((7 : Int) ≤ 5 →
      ("k", (⟨1, 8⟩ : Val)) ∈ (ttlList (ttlPut ttlNew "k" ⟨1, 8⟩ 5 0) 7).1) :=
  c3_expiry_boundary (ttlPut ttlNew "k" ⟨1, 8⟩ 5 0) "k" ⟨⟨1, 8⟩, 5⟩ 7
    (by decide) (by decide)

/-- C6: an entry stored with `ttl ≤ 0` never expires: for every instant,
`Get` on the key returns the stored value as found and leaves the cache
state completely unchanged, and `List` at every instant includes the
key-value pair in its snapshot and keeps the entry in the table. -/
theorem c6_nonpositive_ttl (c : TTLCache) (k : String) (v : Val)
    (ttl t0 now : Int) (h : ttl ≤ 0) :
    ttlGet (ttlPut c k v ttl t0) k now = (some v, ttlPut c k v ttl t0) ∧
    (k, v) ∈ (ttlList (ttlPut c k v ttl t0) now).1 ∧
    lookupA (ttlList (ttlPut c k v ttl t0) now).2.table k
      = some ⟨v, 0⟩ := by
  have hexp : ttlExpiryOf ttl t0 = 0 := by
    simp only [ttlExpiryOf, if_neg (by omega : ¬ (0 : Int) < ttl)]
  have htab : (ttlPut c k v ttl t0).table
      = (k, ⟨v, 0⟩) :: deleteA k c.table := by
    simp [ttlPut, insertA, hexp]
  refine ⟨?_, ?_, ?_⟩
  · simp [ttlGet, htab, lookupA, ttlExpired, hexp]
  · simp [ttlList, htab, ttlExpired, hexp]
  · simp [ttlList, htab, ttlExpired, lookupA, hexp]

theorem c6_witness :
    ttlGet (ttlPut ttlNew "k" ⟨7, 8⟩ 0 3) "k" 1000000
      = (some ⟨7, 8⟩, ttlPut ttlNew "k" ⟨7, 8⟩ 0 3) ∧
    ("k", (⟨7, 8⟩ : Val)) ∈ (ttlList (ttlPut ttlNew "k" ⟨7, 8⟩ 0 3) 1000000).1 ∧
    lookupA (ttlList (ttlPut ttlNew "k" ⟨7, 8⟩ 0 3) 1000000).2.table "k"
      = some ⟨⟨7, 8⟩, 0⟩ :=
  c6_nonpositive_ttl ttlNew "k" ⟨7, 8⟩ 0 3 1000000 (by decide)

/-- C7: a `Put` on an already-present key replaces the entry wholesale: the
state after two `Put`s on the same key equals the state after the latest
`Put` alone, and the stored entry carries exactly the latest value and the
expiry computed from the latest arguments (`now + ttl` when `ttl > 0`, the
never-expires sentinel otherwise). -/
theorem c7_put_wholesale (c : TTLCache) (k : String) (v1 v2 : Val)
    (ttl1 t1 ttl2 t2 : Int) :
    ttlPut (ttlPut c k v1 ttl1 t1) k v2 ttl2 t2 = ttlPut c k v2 ttl2 t2 ∧
    lookupA (ttlPut c k v2 ttl2 t2).table k
      = some ⟨v2, ttlExpiryOf ttl2 t2⟩ := by
  constructor
  · simp [ttlPut, insertA, deleteA, deleteA_deleteA]
  · simp [ttlPut, insertA, lookupA]

/-- C8: the first read observing an expired entry removes it: `Get` on a
present key whose stored expiry is set and strictly in the past deletes
the entry from the table and reports not-found, and `List` drops every
expired entry it scans from the table while returning exactly the
key-value pairs of the unexpired entries. -/
theorem c8_lazy_removal (c : TTLCache) (k : String) (it : TTLItem)
    (now : Int) (hl : lookupA c.table k = some it)
    (he : ttlExpired now it = true) :
    ttlGet c k now = (none, ⟨deleteA k c.table⟩) ∧
    lookupA (ttlGet c k now).2.table k = none ∧
    (∀ p ∈ c.table, ttlExpired now p.2 = true →
      p ∉ (ttlList c now).2.table) ∧
    (∀ p ∈ c.table, ttlExpired now p.2 = false →
      p ∈ (ttlList c now).2.table ∧ (p.1, p.2.value) ∈ (ttlList c now).1) ∧
    (∀ q ∈ (ttlList c now).1, ∃ p ∈ c.table,
      ttlExpired now p.2 = false ∧ q = (p.1, p.2.value)) := by
  have hget : ttlGet c k now = (none, ⟨deleteA k c.table⟩) := by
    simp [ttlGet, hl, he]
  refine ⟨hget, ?_, ?_, ?_, ?_⟩
  · rw [hget]
    exact lookupA_deleteA_self k c.table
  · intro p hp hexp hmem
    have h2 := (List.mem_filter.mp hmem).2
    rw [hexp] at h2
    simp at h2
  · intro p hp hexp
    have hmem : p ∈ c.table.filter (fun q => ! ttlExpired now q.2) :=
      List.mem_filter.mpr ⟨hp, by simp [hexp]⟩
    exact ⟨hmem, List.mem_map.mpr ⟨p, hmem, rfl⟩⟩
  · intro q hq
    obtain ⟨p, hpmem, hpq⟩ := List.mem_map.mp hq
    have h2 := List.mem_filter.mp hpmem
    exact ⟨p, h2.1, by simpa using h2.2, hpq.symm⟩

theorem c8_witness :
    ttlGet ⟨[("x", ⟨⟨1, 8⟩, 5⟩), ("y", ⟨⟨2, 8⟩, 0⟩)]⟩ "x" 10
      = (none, ⟨deleteA "x" [("x", ⟨⟨1, 8⟩, 5⟩), ("y", ⟨⟨2, 8⟩, 0⟩)]⟩) ∧
    lookupA (ttlGet ⟨[("x", ⟨⟨1, 8⟩, 5⟩), ("y", ⟨⟨2, 8⟩, 0⟩)]⟩
      "x" 10).2.table "x" = none ∧
    (∀ p ∈ [("x", (⟨⟨1, 8⟩, 5⟩ : TTLItem)), ("y", ⟨⟨2, 8⟩, 0⟩)],
      ttlExpired 10 p.2 = true →
      p ∉ (ttlList ⟨[("x", ⟨⟨1, 8⟩, 5⟩), ("y", ⟨⟨2, 8⟩, 0⟩)]⟩ 10).2.table) ∧
    (∀ p ∈ [("x", (⟨⟨1, 8⟩, 5⟩ : TTLItem)), ("y", ⟨⟨2, 8⟩, 0⟩)],
      ttlExpired 10 p.2 = false →
      p ∈ (ttlList ⟨[("x", ⟨⟨1, 8⟩, 5⟩), ("y", ⟨⟨2, 8⟩, 0⟩)]⟩ 10).2.table ∧
      (p.1, p.2.value)
        ∈ (ttlList ⟨[("x", ⟨⟨1, 8⟩, 5⟩), ("y", ⟨⟨2, 8⟩, 0⟩)]⟩ 10).1) ∧
    (∀ q ∈ (ttlList ⟨[("x", ⟨⟨1, 8⟩, 5⟩), ("y", ⟨⟨2, 8⟩, 0⟩)]⟩ 10).1,
      ∃ p ∈ [("x", (⟨⟨1, 8⟩, 5⟩ : TTLItem)), ("y", ⟨⟨2, 8⟩, 0⟩)],
      ttlExpired 10 p.2 = false ∧ q = (p.1, p.2.value)) :=
  c8_lazy_removal ⟨[("x", ⟨⟨1, 8⟩, 5⟩), ("y", ⟨⟨2, 8⟩, 0⟩)]⟩ "x" ⟨⟨1, 8⟩, 5⟩
    10 (by decide) (by decide)
